import Mathlib

/-!
Verification development for the gtsam_mod linear-factor core.

The definitions below are a shallow embedding of `JacobianFactor.cpp`
(JacobianFactor construction, error evaluation, `equals`, `sparse`,
the Hessian-to-Jacobian conversion and the in-place elimination engine),
of the stubbed members of `DecisionTreeFactor.h`, and of
`CameraSet::equals` from `CameraSet.h`.  Matrices are lists of rows of
rationals; the dense numeric kernels that live outside this repository
(the noise model's `QR`, `choleskyCareful`, the whitening routines) are
taken as explicit function parameters, exactly as the source consumes
them through the noise-model capability interface.
-/

/-- A vector is a list of rational entries. -/
abbrev Vec := List ℚ

/-- A matrix is a list of rows. -/
abbrev Mat := List (List ℚ)

/-- Entry `(i, j)` of a matrix, defaulting to `0` outside the stored extent. -/
def entry (A : Mat) (i j : Nat) : ℚ := (A.getD i []).getD j 0

/-- Column count of a (rectangular) matrix, read off the first row. -/
def matCols (A : Mat) : Nat := (A.getD 0 []).length

/-- Negation of a vector. -/
def vneg (v : Vec) : Vec := v.map Neg.neg

/-- Elementwise addition; a missing entry counts as `0`. -/
def vadd : Vec → Vec → Vec
  | [], ys => ys
  | x :: xs, [] => x :: xs
  | x :: xs, y :: ys => (x + y) :: vadd xs ys

/-- Dot product (truncating to the shorter operand, as both sides always
have equal length at the call sites translated from the source). -/
def dot (v w : Vec) : ℚ := (List.zipWith (· * ·) v w).sum

/-- Matrix-vector product, one dot product per row. -/
def matvec (A : Mat) (x : Vec) : Vec := A.map (fun row => dot row x)

/-- The source's `sub(v, i1, i2)`: entries of `v` with index in `[i1, i2)`. -/
def sub (v : Vec) (i1 i2 : Nat) : Vec := (v.drop i1).take (i2 - i1)

/-- Column offset of block `k` in a block layout: the sum of the widths of
the blocks before it (the source's `Ab_.offset(k)`). -/
def offset (dims : List Nat) (k : Nat) : Nat := (dims.take k).sum

/-- Modelled from the spec: a diagonal-family noise model (`gtsam/linear/NoiseModel`,
not under `src/`) carries one sigma per row; `dim()` is the number of sigmas and
`isConstrained()` distinguishes the constrained variant. -/
structure NoiseModel where
  sigmas : Vec
  constrained : Bool
deriving DecidableEq

/-- Modelled from the spec: `noiseModel::Diagonal::Sigmas`. -/
def noiseModel.Diagonal.Sigmas (s : Vec) : NoiseModel := ⟨s, false⟩

/-- Modelled from the spec: `noiseModel::Constrained::MixedSigmas`, the
constrained variant. -/
def noiseModel.Constrained.MixedSigmas (s : Vec) : NoiseModel := ⟨s, true⟩

/-- Modelled from the spec: `noiseModel::Unit::Create n`, identity weighting. -/
def noiseModel.Unit.Create (n : Nat) : NoiseModel := ⟨List.replicate n 1, false⟩

/-- The JacobianFactor data model of `JacobianFactor.cpp`: ordered keys, a
backing augmented matrix (`matrix_`) block-partitioned by `blockDims`
(one width per variable plus the trailing width-1 right-hand-side block),
the active view (`rowStart`/`rowEnd`/`firstBlock` of `Ab_`), the noise
model and the per-row staircase record `firstNonzeroBlocks_`. -/
structure JacobianFactor where
  keys : List Nat
  matrix : Mat
  blockDims : List Nat
  rowStart : Nat
  rowEnd : Nat
  firstBlock : Nat
  model : Option NoiseModel
  firstNonzeroBlocks : List Nat

/-- Active row count of the factor (`Ab_.rows()`). -/
def JacobianFactor.rows (f : JacobianFactor) : Nat := f.rowEnd - f.rowStart

/-- Active column count of the factor (`Ab_.cols()`): everything from the
first active block to the end of the layout. -/
def JacobianFactor.activeCols (f : JacobianFactor) : Nat :=
  offset f.blockDims f.blockDims.length - offset f.blockDims f.firstBlock

/-- The source's `Ab_.range(0, nrFrontals).cols()`: total width of the first
`nrFrontals` active blocks. -/
def JacobianFactor.frontalDim (f : JacobianFactor) (nrFrontals : Nat) : Nat :=
  offset f.blockDims (f.firstBlock + nrFrontals) - offset f.blockDims f.firstBlock

/-- The right-hand-side column `getb()`: the last block of the layout,
restricted to the active rows. -/
def JacobianFactor.getb (f : JacobianFactor) : Vec :=
  (List.range f.rows).map (fun r =>
    entry f.matrix (f.rowStart + r) (offset f.blockDims (f.blockDims.length - 1)))

/-- Active block `pos` of the factor (`Ab_(pos)`), as a sub-matrix. -/
def JacobianFactor.getBlock (f : JacobianFactor) (pos : Nat) : Mat :=
  (List.range f.rows).map (fun r =>
    (List.range (f.blockDims.getD (f.firstBlock + pos) 0)).map (fun j =>
      entry f.matrix (f.rowStart + r) (offset f.blockDims (f.firstBlock + pos) + j)))

/-- Row `r` of the active view across all active blocks
(the source's `Ab_.range(0, Ab_.nBlocks()).row(r)`). -/
def JacobianFactor.activeRow (f : JacobianFactor) (r : Nat) : Vec :=
  (List.range f.activeCols).map (fun c =>
    entry f.matrix (f.rowStart + r) (offset f.blockDims f.firstBlock + c))

/-- The post-QR cleanup loop of `eliminate`: zero every entry strictly below
the diagonal in the first `rank` rows (`matrix_(i,j) = 0` for `j < i < rank`). -/
def zeroLowerTriangle (m : Mat) (rank : Nat) : Mat :=
  (List.range m.length).map (fun i =>
    if i < rank then
      (List.range (m.getD i []).length).map (fun j =>
        if j < i then (0 : ℚ) else (m.getD i []).getD j 0)
    else m.getD i [])

/-- One row's worth of the `while` loop in the staircase recomputation of
`eliminate`: advance `varpos` while it is below `sz` and the next block
ends at or before column `row`.  The fuel argument is always called with
`sz`, which bounds the number of possible increments. -/
def advanceVarpos (relOff : Nat → Nat) (sz row : Nat) : Nat → Nat → Nat
  | 0, v => v
  | fuel + 1, v =>
      if v < sz ∧ relOff (v + 1) ≤ row then advanceVarpos relOff sz row fuel (v + 1) else v

/-- The staircase recomputation loop of `eliminate`, rows `row, row+1, …`
carrying `varpos` across rows exactly as the source does. -/
def fnzRows (relOff : Nat → Nat) (sz : Nat) : Nat → Nat → Nat → List Nat
  | _, _, 0 => []
  | row, varpos, m + 1 =>
      let v := advanceVarpos relOff sz row sz varpos
      v :: fnzRows relOff sz (row + 1) v m

/-- `firstNonzeroBlocks_` as recomputed at the end of `eliminate`. -/
def computeFNZ (relOff : Nat → Nat) (sz nrows : Nat) : List Nat :=
  fnzRows relOff sz 0 0 nrows

/-- Result of the noise model's in-place `QR` on the backing matrix: the
transformed matrix together with the returned diagonal noise model. -/
structure QRResult where
  matrix : Mat
  model : NoiseModel

/-- The one failure `eliminate` can raise: the singular-elimination
`domain_error`, naming the offending (first frontal) variable. -/
inductive ElimError where
  | singular (var : Nat)
deriving DecidableEq

/-- The Gaussian conditional extracted by `eliminate`: keys, number of
frontals, the `[R S d]` rows (`rsd_`) with their block layout, and the
per-row sigmas. -/
structure GaussianConditional where
  keys : List Nat
  nrFrontals : Nat
  rsd : Mat
  blockDims : List Nat
  sigmas : Vec

/-- `JacobianFactor::eliminate(nrFrontals)` from `JacobianFactor.cpp`.
The noise model's `QR` (code outside this repository) is passed in as the
oracle `qr`, consumed exactly where the source calls `model_->QR(matrix_)`.
Control flow follows the source: compute `frontalDim`, run QR, zero the
lower-left triangle up to the returned rank, raise the singular error when
the rank is below `frontalDim`, otherwise extract the conditional, advance
the active view, drop the frontal keys, rebuild the noise model from the
surviving sigmas and recompute the staircase. -/
def JacobianFactor.eliminate (qr : Mat → QRResult) (f : JacobianFactor)
    (nrFrontals : Nat) : Except ElimError (GaussianConditional × JacobianFactor) :=
  let frontalDim := f.frontalDim nrFrontals
  let q := qr f.matrix
  let rank := q.model.sigmas.length
  let m1 := zeroLowerTriangle q.matrix rank
  if rank < frontalDim then
    Except.error (ElimError.singular (f.keys.getD 0 0))
  else
    let cond : GaussianConditional :=
      { keys := f.keys
        nrFrontals := nrFrontals
        rsd := (List.range frontalDim).map (fun r =>
          (List.range f.activeCols).map (fun c =>
            entry m1 (f.rowStart + r) (offset f.blockDims f.firstBlock + c)))
        blockDims := f.blockDims.drop f.firstBlock
        sigmas := (q.model.sigmas.drop f.rowStart).take frontalDim }
    let newKeys := f.keys.drop nrFrontals
    let newFirstBlock := f.firstBlock + nrFrontals
    let newRowStart := f.rowStart + frontalDim
    let relOff : Nat → Nat := fun k =>
      offset f.blockDims (newFirstBlock + k) - offset f.blockDims newFirstBlock
    let newModel :=
      if q.model.constrained then
        noiseModel.Constrained.MixedSigmas (sub q.model.sigmas frontalDim rank)
      else
        noiseModel.Diagonal.Sigmas (sub q.model.sigmas frontalDim rank)
    Except.ok (cond,
      { keys := newKeys
        matrix := m1
        blockDims := f.blockDims
        rowStart := newRowStart
        rowEnd := rank
        firstBlock := newFirstBlock
        model := some newModel
        firstNonzeroBlocks := computeFNZ relOff newKeys.length (rank - newRowStart) })

/-- Pad or truncate a row to a given width (identity on well-shaped input;
the C++ block assignment `Ab_(j) = terms[j].second` requires exact shape). -/
def padTo (xs : Vec) (n : Nat) : Vec := xs.take n ++ List.replicate (n - xs.length) 0

/-- Assemble the backing augmented matrix `[A1 A2 … b]` of the terms
constructor: row `r` concatenates row `r` of every coefficient block and
ends with `b(r)`. -/
def buildAugmented (terms : List (Nat × Mat)) (b : Vec) : Mat :=
  (List.range b.length).map (fun r =>
    (terms.map (fun t => padTo (t.2.getD r []) (matCols t.2))).flatten ++ [b.getD r 0])

/-- The general terms constructor
`JacobianFactor(const std::vector<std::pair<Index, Matrix>>&, b, model)`:
keys are the term indices in argument order, the block layout is one block
per coefficient matrix plus the trailing width-1 `b` block, the active view
spans the whole matrix, and every row's first-nonzero-block record is `0`.
The fixed-arity constructors of the source are instances of this one. -/
def mkJacobianFactor (terms : List (Nat × Mat)) (b : Vec) (model : NoiseModel) :
    JacobianFactor :=
  { keys := terms.map Prod.fst
    matrix := buildAugmented terms b
    blockDims := terms.map (fun t => matCols t.2) ++ [1]
    rowStart := 0
    rowEnd := b.length
    firstBlock := 0
    model := some model
    firstNonzeroBlocks := List.replicate b.length 0 }

/-- Modelled from the spec: `equal_with_abs_tol` (`gtsam/base/Matrix`, not
under `src/`) — vectors of equal length whose entries differ by at most the
tolerance elementwise. -/
def equal_with_abs_tol (v1 v2 : Vec) (tol : ℚ) : Bool :=
  (v1.length == v2.length) &&
    (List.range v1.length).all (fun i => decide (|v1.getD i 0 - v2.getD i 0| ≤ tol))

/-- `JacobianFactor::equals` from `JacobianFactor.cpp`: empty factors compare
by emptiness alone; otherwise keys must coincide (the noise-model comparison
is commented out in the source), the active dimensions must coincide, and
every row must match the corresponding row up to an overall sign, within
the tolerance. -/
def JacobianFactor.equals (f g : JacobianFactor) (tol : ℚ) : Bool :=
  if f.keys.isEmpty then g.keys.isEmpty
  else if f.keys = g.keys then
    if f.rows = g.rows ∧ f.activeCols = g.activeCols then
      (List.range f.rows).all (fun r =>
        equal_with_abs_tol (f.activeRow r) (g.activeRow r) tol ||
        equal_with_abs_tol (vneg (f.activeRow r)) (g.activeRow r) tol)
    else false
  else false

/-- A copy of `f` with an arbitrary subset of backing-matrix rows negated
(those `i` with `flips i = true`) and the noise model replaced. -/
def flipRows (f : JacobianFactor) (flips : Nat → Bool) (m : Option NoiseModel) :
    JacobianFactor :=
  { f with
    matrix := (List.range f.matrix.length).map (fun i =>
      if flips i then vneg (f.matrix.getD i []) else f.matrix.getD i [])
    model := m }

/-- `JacobianFactor::unweighted_error`: start from `-b`, return it when the
factor has no keys, otherwise accumulate `Aᵢ · c(keyᵢ)` over all variables. -/
def JacobianFactor.unweighted_error (f : JacobianFactor) (c : Nat → Vec) : Vec :=
  if f.keys.isEmpty then vneg f.getb
  else
    (List.range f.keys.length).foldl
      (fun e pos => vadd e (matvec (f.getBlock pos) (c (f.keys.getD pos 0))))
      (vneg f.getb)

/-- `JacobianFactor::error_vector`: the noise model's whitening (passed as
the function `whiten`) of the unweighted residual; the empty factor whitens
`-b` directly. -/
def JacobianFactor.error_vector (whiten : Vec → Vec) (f : JacobianFactor)
    (c : Nat → Vec) : Vec :=
  if f.keys.isEmpty then whiten (vneg f.getb) else whiten (f.unweighted_error c)

/-- `JacobianFactor::error`: `0` for an empty factor, otherwise half the
squared norm of the weighted residual. -/
def JacobianFactor.error (whiten : Vec → Vec) (f : JacobianFactor)
    (c : Nat → Vec) : ℚ :=
  if f.keys.isEmpty then 0
  else (1 / 2) * dot (f.error_vector whiten c) (f.error_vector whiten c)

/-- The residual exactly as the spec words it: `e = -b + Σᵢ Aᵢ·x[keyᵢ]`,
with the empty sum leaving `-b`. -/
def specUnweightedResidual (f : JacobianFactor) (c : Nat → Vec) : Vec :=
  vadd (vneg f.getb)
    (((List.range f.keys.length).map
      (fun pos => matvec (f.getBlock pos) (c (f.keys.getD pos 0)))).foldr vadd [])

/-- The structural-zero detection threshold `1e-12` of `sparse`. -/
def tol12 : ℚ := 1 / 1000000000000

/-- `JacobianFactor::sparse(columnIndices)`: for every variable, whiten its
coefficient block and emit `(row, columnIndices[key] + j, value)` for each
entry whose magnitude exceeds `1e-12`; then append every entry of the
whitened right-hand side in the final dedicated column
`columnIndices.back()`.  Whitening is the noise model's capability, passed
in as `whitenM`/`whitenV`. -/
def JacobianFactor.sparse (whitenM : Mat → Mat) (whitenV : Vec → Vec)
    (f : JacobianFactor) (columnIndices : List Nat) : List (Nat × Nat × ℚ) :=
  let coeff := (List.range f.keys.length).flatMap (fun pos =>
    let wA := whitenM (f.getBlock pos)
    let colStart := columnIndices.getD (f.keys.getD pos 0) 0
    (List.range wA.length).flatMap (fun i =>
      (List.range (matCols wA)).filterMap (fun j =>
        if tol12 < |entry wA i j| then some (i, colStart + j, entry wA i j)
        else none)))
  let wb := whitenV f.getb
  coeff ++ (List.range wb.length).map (fun i =>
    (i, columnIndices.getD (columnIndices.length - 1) 0, wb.getD i 0))

/-- The HessianFactor data consumed by the conversion constructor: keys, the
augmented information matrix `info_` and its block layout. -/
structure HessianFactor where
  keys : List Nat
  info : Mat
  blockDims : List Nat

/-- The negative/indefinite-matrix conversion error. -/
inductive ConvError where
  | indefinite
deriving DecidableEq

/-- Insertion into a sorted duplicate-free list, modelling `std::set::insert`. -/
def insertSorted (x : Nat) : List Nat → List Nat
  | [] => [x]
  | y :: ys =>
      if x < y then x :: y :: ys
      else if x = y then y :: ys
      else y :: insertSorted x ys

/-- The `set<Index> vars` of the Hessian conversion: every key inserted into
an ordered set. -/
def setInsertAll (ks : List Nat) : List Nat :=
  ks.foldl (fun acc k => insertSorted k acc) []

/-- `JacobianFactor::JacobianFactor(const HessianFactor&)`:  run the careful
Cholesky (the `chol` oracle — `gtsam/base/cholesky` is not under `src/`, so
it is modelled from the spec as a fallible in-place square-root returning
the claimed rank); on failure the negative/indefinite error propagates; on
success the strictly-lower triangle of the top `maxrank` rows is zeroed,
the active view ends at `maxrank`, the model is a unit model of dimension
`maxrank`, the staircase is all zeros, and the keys end up re-sorted into
ascending order (the net effect of the permutation machinery, whose
`permuteWithInverse` member is also outside `src/` and is modelled from the
spec as the explicit key re-sort it implements). -/
def JacobianFactor.mkFromHessian (chol : Mat → Except Unit (Mat × Nat))
    (hf : HessianFactor) : Except ConvError JacobianFactor :=
  match chol hf.info with
  | Except.error _ => Except.error ConvError.indefinite
  | Except.ok (m, maxrank) =>
      Except.ok
        { keys := setInsertAll hf.keys
          matrix := zeroLowerTriangle m maxrank
          blockDims := hf.blockDims
          rowStart := 0
          rowEnd := maxrank
          firstBlock := 0
          model := some (noiseModel.Unit.Create maxrank)
          firstNonzeroBlocks := List.replicate maxrank 0 }

/-- Modelled from the spec: the noise model's `QR` (outside `src/`) returns a
diagonal model with one sigma per surviving row of the triangularized
system, and its dimension is strictly below the total column count of the
augmented matrix, the right-hand-side column never contributing a row. -/
def QRRankBounded (qr : Mat → QRResult) (totalCols : Nat) : Prop :=
  ∀ m, (qr m).model.sigmas.length < totalCols

/-- A discrete assignment, `DiscreteFactor::Values`. -/
abbrev DiscreteValues := List (Nat × Nat)

/-- A domain of admissible values for one discrete variable. -/
abbrev Domain := List Nat

/-- The not-implemented failure of the decision-tree stubs. -/
inductive DiscreteError where
  | notImplemented
deriving DecidableEq

/-- Minimal decision-tree-backed factor: keys plus a potential table (the
stubbed members below never inspect either). -/
structure DecisionTreeFactor where
  keys : List Nat
  table : List ℚ

/-- `DecisionTreeFactor::ensureArcConsistency` from `DecisionTreeFactor.h`:
the `throw` in its body is commented out and the member just returns
`false`; in the fallible result type that is `Except.ok false`, never an
error. -/
def DecisionTreeFactor.ensureArcConsistency (f : DecisionTreeFactor) (j : Nat)
    (domains : List Domain) : Except DiscreteError Bool :=
  Except.ok false

/-- `DecisionTreeFactor::partiallyApply(const Values&)`: unconditionally
throws the not-implemented `runtime_error`. -/
def DecisionTreeFactor.partiallyApplyValues (f : DecisionTreeFactor)
    (vals : DiscreteValues) : Except DiscreteError DecisionTreeFactor :=
  Except.error DiscreteError.notImplemented

/-- `DecisionTreeFactor::partiallyApply(const std::vector<Domain>&)`:
unconditionally throws the not-implemented `runtime_error`. -/
def DecisionTreeFactor.partiallyApplyDomains (f : DecisionTreeFactor)
    (domains : List Domain) : Except DiscreteError DecisionTreeFactor :=
  Except.error DiscreteError.notImplemented

/-- `CameraSet::equals` from `CameraSet.h`: sizes must agree; the comparison
loop unconditionally `break`s after its first iteration, so for nonempty
sets only the first cameras are compared, and empty sets compare equal.
The camera type and its `equals` member are the abstract parameters `C`
and `camEq`. -/
def CameraSet.equals {C : Type} (camEq : C → C → ℚ → Bool) (p q : List C)
    (tol : ℚ) : Bool :=
  if p.length ≠ q.length then false
  else
    match p, q with
    | [], _ => true
    | _, [] => true
    | a :: _, b :: _ => camEq a b tol

/-- Placeholder factor used only to project concrete elimination results. -/
def dummyJF : JacobianFactor := ⟨[], [], [], 0, 0, 0, none, []⟩

/-- Placeholder conditional used only to project concrete elimination results. -/
def dummyGC : GaussianConditional := ⟨[], 0, [], [], []⟩

/-- Concrete QR oracle for the one-variable example: rank 1, unit sigma. -/
def wqr : Mat → QRResult := fun m => ⟨m, ⟨[1], false⟩⟩

/-- Concrete one-variable factor `A = [1]`, `b = [2]`. -/
def wf : JacobianFactor := mkJacobianFactor [(0, [[1]])] [2] (noiseModel.Diagonal.Sigmas [1])

/-- Concrete QR oracle for the two-variable example: rank 2, unit sigmas. -/
def wqr2 : Mat → QRResult := fun m => ⟨m, ⟨[1, 1], false⟩⟩

/-- Concrete two-variable factor with identity blocks. -/
def wf2 : JacobianFactor :=
  mkJacobianFactor [(0, [[1], [0]]), (1, [[0], [1]])] [1, 2] (noiseModel.Diagonal.Sigmas [1, 1])

/-- The concrete result of eliminating one variable from `wf2`. -/
def welim2 : GaussianConditional × JacobianFactor :=
  ((JacobianFactor.eliminate wqr2 wf2 1).toOption).getD (dummyGC, dummyJF)

/-- Concrete careful-Cholesky oracle claiming rank 1. -/
def wchol : Mat → Except Unit (Mat × Nat) := fun m => Except.ok (m, 1)

/-- Concrete Hessian factor with unsorted keys. -/
def whf : HessianFactor := ⟨[1, 0], [[1, 0, 0], [0, 1, 0], [0, 0, 0]], [1, 1, 1]⟩

/-- The concrete result of converting `whf`. -/
def wJ4 : JacobianFactor :=
  ((JacobianFactor.mkFromHessian wchol whf).toOption).getD dummyJF

/-- Concrete empty-keys factor with a nonzero right-hand side, built by the
terms constructor with an empty term list. -/
def emptyF : JacobianFactor := mkJacobianFactor [] [1] (noiseModel.Unit.Create 1)

theorem getD_range_map {α : Type} (f : Nat → α) (n i : Nat) (d : α) :
    ((List.range n).map f).getD i d = if i < n then f i else d := by
  by_cases h : i < n
  · simp [List.getD_eq_getElem?_getD, List.getElem?_map, List.getElem?_range, h]
  · have hlen : ((List.range n).map f).length ≤ i := by
      simpa using Nat.le_of_not_lt h
    simp [List.getD_eq_getElem?_getD, List.getElem?_eq_none hlen, h]

theorem entry_zeroLowerTriangle (m : Mat) (rank i j : Nat) :
    entry (zeroLowerTriangle m rank) i j =
      if j < i ∧ i < rank then 0 else entry m i j := by
  unfold entry zeroLowerTriangle
  rw [getD_range_map]
  by_cases hi : i < m.length
  · rw [if_pos hi]
    by_cases hr : i < rank
    · rw [if_pos hr, getD_range_map]
      by_cases hj : j < (m.getD i []).length
      · rw [if_pos hj]
        by_cases hji : j < i
        · simp [hji, hr]
        · simp [hji]
      · rw [if_neg hj]
        have h0 : (m.getD i []).getD j 0 = 0 :=
          List.getD_eq_default _ _ (Nat.le_of_not_lt hj)
        rw [h0]
        by_cases hji : j < i <;> simp [hji, hr]
    · rw [if_neg hr]
      have hn : ¬ (j < i ∧ i < rank) := fun h => hr h.2
      rw [if_neg hn]
  · rw [if_neg hi]
    have h0 : m.getD i [] = [] := List.getD_eq_default _ _ (Nat.le_of_not_lt hi)
    rw [h0]
    by_cases hc : j < i ∧ i < rank <;> simp [hc]

theorem vadd_right_nil (v : Vec) : vadd v [] = v := by
  cases v <;> rfl

theorem vadd_assoc_vec (a b c : Vec) : vadd (vadd a b) c = vadd a (vadd b c) := by
  induction a generalizing b c with
  | nil => simp [vadd]
  | cons x xs ih =>
      cases b with
      | nil => simp [vadd]
      | cons y ys =>
          cases c with
          | nil => simp [vadd]
          | cons z zs => simp [vadd, ih, add_assoc]

theorem foldl_vadd_eq (l : List Vec) (e : Vec) :
    l.foldl vadd e = vadd e (l.foldr vadd []) := by
  induction l generalizing e with
  | nil => simp [vadd_right_nil]
  | cons a l ih => simp [List.foldl_cons, List.foldr_cons, ih, vadd_assoc_vec]

theorem getD_vneg (v : Vec) (i : Nat) : (vneg v).getD i 0 = -(v.getD i 0) := by
  by_cases h : i < v.length
  · simp [vneg, List.getD_eq_getElem?_getD, List.getElem?_map,
      List.getElem?_eq_getElem h]
  · have h1 : (vneg v).length ≤ i := by simpa [vneg] using Nat.le_of_not_lt h
    have h2 : v.length ≤ i := Nat.le_of_not_lt h
    rw [List.getD_eq_default _ _ h1, List.getD_eq_default _ _ h2, neg_zero]

theorem equal_with_abs_tol_refl (v : Vec) (tol : ℚ) (h : 0 ≤ tol) :
    equal_with_abs_tol v v tol = true := by
  simp [equal_with_abs_tol, List.all_eq_true, sub_self, h]

theorem offset_zero (dims : List Nat) : offset dims 0 = 0 := by
  simp [offset]

theorem offset_length_eq_sum (dims : List Nat) :
    offset dims dims.length = dims.sum := by
  simp [offset]

theorem offset_le_sum (dims : List Nat) (k : Nat) : offset dims k ≤ dims.sum := by
  unfold offset
  conv_rhs => rw [← List.take_append_drop k dims]
  rw [List.sum_append]
  exact Nat.le_add_right _ _

theorem mem_insertSorted (a x : Nat) (l : List Nat) :
    a ∈ insertSorted x l ↔ a = x ∨ a ∈ l := by
  induction l with
  | nil => simp [insertSorted]
  | cons y ys ih =>
      unfold insertSorted
      by_cases h1 : x < y
      · rw [if_pos h1]
        simp [List.mem_cons]
      · by_cases h2 : x = y
        · rw [if_neg h1, if_pos h2]
          subst h2
          constructor
          · exact fun h => Or.inr h
          · rintro (h | h)
            · subst h; exact List.mem_cons_self _ _
            · exact h
        · rw [if_neg h1, if_neg h2]
          simp only [List.mem_cons, ih]
          tauto

theorem sorted_insertSorted (x : Nat) (l : List Nat) (hl : l.Sorted (· < ·)) :
    (insertSorted x l).Sorted (· < ·) := by
  induction l with
  | nil => simp [insertSorted]
  | cons y ys ih =>
      rw [List.sorted_cons] at hl
      unfold insertSorted
      by_cases h1 : x < y
      · rw [if_pos h1, List.sorted_cons]
        refine ⟨?_, List.sorted_cons.mpr hl⟩
        intro b hb
        rcases List.mem_cons.mp hb with h | h
        · omega
        · exact lt_trans h1 (hl.1 b h)
      · by_cases h2 : x = y
        · rw [if_neg h1, if_pos h2]
          exact List.sorted_cons.mpr hl
        · rw [if_neg h1, if_neg h2, List.sorted_cons]
          refine ⟨?_, ih hl.2⟩
          intro b hb
          rcases (mem_insertSorted b x ys).mp hb with h | h
          · subst h; omega
          · exact hl.1 b h

theorem sorted_foldl_insert (ks : List Nat) :
    ∀ acc : List Nat, acc.Sorted (· < ·) →
    (ks.foldl (fun a k => insertSorted k a) acc).Sorted (· < ·) := by
  induction ks with
  | nil => intro acc h; simpa using h
  | cons k ks ih =>
      intro acc h
      exact ih (insertSorted k acc) (sorted_insertSorted k acc h)

theorem sorted_setInsertAll (ks : List Nat) : (setInsertAll ks).Sorted (· < ·) :=
  sorted_foldl_insert ks [] (by simp)

theorem mem_foldl_insert (a : Nat) (ks : List Nat) :
    ∀ acc : List Nat,
    (a ∈ ks.foldl (fun ac k => insertSorted k ac) acc ↔ a ∈ acc ∨ a ∈ ks) := by
  induction ks with
  | nil => intro acc; simp
  | cons k ks ih =>
      intro acc
      rw [List.foldl_cons, ih (insertSorted k acc), mem_insertSorted]
      simp
      tauto

theorem mem_setInsertAll (a : Nat) (ks : List Nat) :
    a ∈ setInsertAll ks ↔ a ∈ ks := by
  unfold setInsertAll
  rw [mem_foldl_insert]
  simp

/-- C1: for a JacobianFactor whose active view spans its full extent and any
`nrFrontals` at most the key count, `eliminate(nrFrontals)` raises the
singular-elimination domain error — naming the first frontal variable —
if and only if the rank returned by the noise model's QR
(`noiseModel->dim()`) is strictly below `frontalDim`, the total width of
the first `nrFrontals` blocks; the `Except` result type records that no
conditional is returned in that case. -/
theorem eliminate_singular_iff (qr : Mat → QRResult) (f : JacobianFactor) (n : Nat)
    (h1 : f.rowStart = 0) (h2 : f.rowEnd = f.matrix.length) (h3 : f.firstBlock = 0)
    (h4 : n ≤ f.keys.length) :
    (JacobianFactor.eliminate qr f n =
        Except.error (ElimError.singular (f.keys.getD 0 0))) ↔
      (qr f.matrix).model.sigmas.length < f.frontalDim n := by
  by_cases hs : (qr f.matrix).model.sigmas.length < f.frontalDim n
  · simp [JacobianFactor.eliminate, hs]
  · simp [JacobianFactor.eliminate, hs]

/-- C2: after a successful `eliminate(nrFrontals)`, the first `nrFrontals`
keys are gone, `rowStart` has advanced by `frontalDim`, `firstBlock` by
`nrFrontals`, `rowEnd` equals the QR rank, and the new noise model is
built from the sigma sub-vector of rows `frontalDim..rank`, with the
constrained variant exactly when the QR model is constrained. -/
theorem eliminate_success_postconditions (qr : Mat → QRResult) (f : JacobianFactor)
    (n : Nat) (cond : GaussianConditional) (f' : JacobianFactor)
    (h1 : f.rowStart = 0) (h3 : f.firstBlock = 0) (h4 : n ≤ f.keys.length)
    (h : JacobianFactor.eliminate qr f n = Except.ok (cond, f')) :
    f'.keys = f.keys.drop n ∧
    f'.rowStart = f.rowStart + f.frontalDim n ∧
    f'.firstBlock = f.firstBlock + n ∧
    f'.rowEnd = (qr f.matrix).model.sigmas.length ∧
    ∃ nm, f'.model = some nm ∧
      nm.sigmas = sub (qr f.matrix).model.sigmas (f.frontalDim n)
        (qr f.matrix).model.sigmas.length ∧
      nm.constrained = (qr f.matrix).model.constrained := by
  simp only [JacobianFactor.eliminate] at h
  by_cases hs : (qr f.matrix).model.sigmas.length < f.frontalDim n
  · rw [if_pos hs] at h
    exact absurd h (by simp)
  · rw [if_neg hs] at h
    rw [Except.ok.injEq, Prod.mk.injEq] at h
    obtain ⟨hc, hf⟩ := h
    subst hf
    refine ⟨rfl, rfl, rfl, rfl, ?_⟩
    cases hcon : (qr f.matrix).model.constrained with
    | true =>
        refine ⟨⟨sub (qr f.matrix).model.sigmas (f.frontalDim n)
          (qr f.matrix).model.sigmas.length, true⟩, ?_, rfl, rfl⟩
        simp [hcon, noiseModel.Constrained.MixedSigmas]
    | false =>
        refine ⟨⟨sub (qr f.matrix).model.sigmas (f.frontalDim n)
          (qr f.matrix).model.sigmas.length, false⟩, ?_, rfl, rfl⟩
        simp [hcon, noiseModel.Diagonal.Sigmas]

/-- C7: after a successful `eliminate` on a factor whose active view spans
its full extent, the remaining active row count is at most the remaining
active column count minus one (stated additively to avoid truncated
subtraction), under the spec-modelled bound that the QR rank is strictly
below the total column count of the augmented matrix. -/
theorem eliminate_leaves_underdetermined (qr : Mat → QRResult) (f : JacobianFactor)
    (n : Nat) (cond : GaussianConditional) (f' : JacobianFactor)
    (h1 : f.rowStart = 0) (h2 : f.rowEnd = f.matrix.length) (h3 : f.firstBlock = 0)
    (h4 : n ≤ f.keys.length)
    (hqr : QRRankBounded qr f.blockDims.sum)
    (h : JacobianFactor.eliminate qr f n = Except.ok (cond, f')) :
    f'.rows + 1 ≤ f'.activeCols := by
  simp only [JacobianFactor.eliminate] at h
  by_cases hs : (qr f.matrix).model.sigmas.length < f.frontalDim n
  · rw [if_pos hs] at h
    exact absurd h (by simp)
  · rw [if_neg hs] at h
    rw [Except.ok.injEq, Prod.mk.injEq] at h
    obtain ⟨hc0, hf0⟩ := h
    subst hf0
    have hfd : f.frontalDim n = offset f.blockDims n := by
      unfold JacobianFactor.frontalDim
      rw [h3, Nat.zero_add, offset_zero, Nat.sub_zero]
    have hrank : offset f.blockDims n ≤ (qr f.matrix).model.sigmas.length := by
      rw [← hfd]; exact Nat.le_of_not_lt hs
    have hbound := hqr f.matrix
    have hle : offset f.blockDims n ≤ f.blockDims.sum := offset_le_sum _ _
    show (qr f.matrix).model.sigmas.length - (f.rowStart + f.frontalDim n) + 1 ≤
      offset f.blockDims f.blockDims.length - offset f.blockDims (f.firstBlock + n)
    rw [h1, h3, hfd, offset_length_eq_sum]
    simp only [Nat.zero_add]
    omega

theorem ite_some_eq_some {α : Type} (p : Prop) [Decidable p] (a b : α) :
    ((if p then some a else none) = some b) ↔ p ∧ a = b := by
  by_cases h : p <;> simp [h]

/-- C3 (amended): the unweighted residual is `-b + Σᵢ Aᵢ·c(keyᵢ)` exactly as
the spec words it (with `-b` alone when the factor has no keys), and the
scalar `error(c)` is half the squared norm of the whitened residual for
non-empty factors — but for an empty (no-keys) factor `error` returns `0`
unconditionally, regardless of `b` and of the noise model. -/
theorem error_matches_whitened_residual (whiten : Vec → Vec) (f : JacobianFactor)
    (c : Nat → Vec) :
    f.unweighted_error c = specUnweightedResidual f c ∧
    f.error whiten c =
      (if f.keys.isEmpty then 0
       else (1 / 2) * dot (whiten (f.unweighted_error c))
         (whiten (f.unweighted_error c))) := by
  constructor
  · unfold JacobianFactor.unweighted_error specUnweightedResidual
    by_cases h : f.keys.isEmpty
    · have h0 : f.keys.length = 0 := by
        cases hk : f.keys with
        | nil => rfl
        | cons a l => rw [hk] at h; simp [List.isEmpty] at h
      rw [if_pos h, h0]
      simp [vadd_right_nil]
    · rw [if_neg h]
      rw [← List.foldl_map]
      exact foldl_vadd_eq _ _
  · unfold JacobianFactor.error JacobianFactor.error_vector
    by_cases h : f.keys.isEmpty
    · simp [h]
    · simp [h]

/-- C3 counterexample: the empty-keys factor `emptyF` (no variables, `b = [1]`,
unit noise model, built by the terms constructor with an empty term list)
has `error(c) = 0`, while the claimed formula — half the squared norm of the
whitened residual, with the unit model's whitening being the identity —
gives `1/2`. -/
theorem error_empty_factor_cex :
    JacobianFactor.error (fun v => v) emptyF (fun _ => []) = 0 ∧
    (1 / 2 : ℚ) * dot (emptyF.unweighted_error (fun _ => []))
        (emptyF.unweighted_error (fun _ => [])) = 1 / 2 ∧
    (0 : ℚ) ≠ 1 / 2 := by
  have he : emptyF.unweighted_error (fun _ => []) = [(-1 : ℚ)] := rfl
  have hd : dot [(-1 : ℚ)] [(-1 : ℚ)] = 1 := by norm_num [dot]
  refine ⟨rfl, ?_, by norm_num⟩
  rw [he, hd, mul_one]

/-- C4: converting a Hessian factor raises the negative/indefinite error
exactly when the careful Cholesky (spec-modelled oracle, the routine lives
outside `src/`) fails; on success the strictly-lower triangle is zero up to
the computed rank, the keys are re-sorted into strictly ascending order
while keeping exactly the original key set, and the noise model is a unit
model whose dimension is the computed rank. -/
theorem mkFromHessian_spec (chol : Mat → Except Unit (Mat × Nat))
    (hf : HessianFactor) :
    ((∃ e, JacobianFactor.mkFromHessian chol hf = Except.error e) ↔
      (∃ e, chol hf.info = Except.error e)) ∧
    (∀ m r J, chol hf.info = Except.ok (m, r) →
      JacobianFactor.mkFromHessian chol hf = Except.ok J →
      (∀ i j, j < i → i < r → entry J.matrix i j = 0) ∧
      J.keys.Sorted (· < ·) ∧
      (∀ k, k ∈ J.keys ↔ k ∈ hf.keys) ∧
      J.model = some (noiseModel.Unit.Create r) ∧
      (noiseModel.Unit.Create r).sigmas.length = r) := by
  constructor
  · unfold JacobianFactor.mkFromHessian
    cases hch : chol hf.info with
    | error e =>
        constructor
        · intro _; exact ⟨e, rfl⟩
        · intro _; exact ⟨ConvError.indefinite, rfl⟩
    | ok p =>
        obtain ⟨m0, r0⟩ := p
        simp
  · intro m r J hch hJ
    unfold JacobianFactor.mkFromHessian at hJ
    rw [hch] at hJ
    rw [Except.ok.injEq] at hJ
    subst hJ
    refine ⟨?_, ?_, ?_, rfl, by simp [noiseModel.Unit.Create]⟩
    · intro i j hji hir
      show entry (zeroLowerTriangle m r) i j = 0
      rw [entry_zeroLowerTriangle, if_pos ⟨hji, hir⟩]
    · exact sorted_setInsertAll _
    · intro k
      exact mem_setInsertAll k _

/-- C8 counterexample: `ensureArcConsistency` does not fail loudly — the
`throw` in its body is commented out and it silently returns `false`
(here: `Except.ok false`, not an error) on a concrete input. -/
theorem ensureArcConsistency_silent_cex :
    DecisionTreeFactor.ensureArcConsistency ⟨[], []⟩ 0 [] = Except.ok false := rfl

/-- C8 (amended): both `partiallyApply` overloads raise the not-implemented
error on every input, but `ensureArcConsistency` silently returns `false`
on every input instead of failing. -/
theorem decisionTree_stub_contract :
    (∀ f vals, DecisionTreeFactor.partiallyApplyValues f vals =
      Except.error DiscreteError.notImplemented) ∧
    (∀ f domains, DecisionTreeFactor.partiallyApplyDomains f domains =
      Except.error DiscreteError.notImplemented) ∧
    (∀ f j domains, DecisionTreeFactor.ensureArcConsistency f j domains =
      Except.ok false) :=
  ⟨fun _ _ => rfl, fun _ _ => rfl, fun _ _ _ => rfl⟩

/-- C10: `CameraSet::equals` compares at most the first camera — for
same-length nonempty sets the result is exactly the comparison of the two
first cameras, whatever the later cameras are, and two empty sets always
compare equal. -/
theorem cameraSet_equals_first_camera_only (C : Type) (camEq : C → C → ℚ → Bool)
    (tol : ℚ) :
    (∀ (x y : C) (xs ys : List C), xs.length = ys.length →
      CameraSet.equals camEq (x :: xs) (y :: ys) tol = camEq x y tol) ∧
    CameraSet.equals camEq ([] : List C) ([] : List C) tol = true := by
  constructor
  · intro x y xs ys h
    unfold CameraSet.equals
    have hlen : ¬ (x :: xs).length ≠ (y :: ys).length := by simp [h]
    rw [if_neg hlen]
  · unfold CameraSet.equals
    simp

/-- C6: `sparse(columnIndices)` emits a `(row, col, value)` triple for a
whitened coefficient entry exactly when the entry's magnitude exceeds
`1e-12`, placed at column `columnIndices[key]` plus the in-block column,
and additionally emits every entry of the whitened right-hand side —
regardless of magnitude — in the final dedicated column
`columnIndices.back()`. -/
theorem sparse_mem_iff (whitenM : Mat → Mat) (whitenV : Vec → Vec)
    (f : JacobianFactor) (ci : List Nat) (t : Nat × Nat × ℚ) :
    t ∈ JacobianFactor.sparse whitenM whitenV f ci ↔
      ((∃ pos, pos < f.keys.length ∧
        ∃ i, i < (whitenM (f.getBlock pos)).length ∧
        ∃ j, j < matCols (whitenM (f.getBlock pos)) ∧
        tol12 < |entry (whitenM (f.getBlock pos)) i j| ∧
        t = (i, ci.getD (f.keys.getD pos 0) 0 + j,
          entry (whitenM (f.getBlock pos)) i j)) ∨
      (∃ i, i < (whitenV f.getb).length ∧
        t = (i, ci.getD (ci.length - 1) 0, (whitenV f.getb).getD i 0))) := by
  unfold JacobianFactor.sparse
  simp only [List.mem_append, List.mem_flatMap, List.mem_range, List.mem_filterMap,
    List.mem_map, ite_some_eq_some]
  constructor
  · rintro (⟨pos, hpos, i, hi, j, hj, hcond, heq⟩ | ⟨i, hi, heq⟩)
    · exact Or.inl ⟨pos, hpos, i, hi, j, hj, hcond, heq.symm⟩
    · exact Or.inr ⟨i, hi, heq.symm⟩
  · rintro (⟨pos, hpos, i, hi, j, hj, hcond, heq⟩ | ⟨i, hi, heq⟩)
    · exact Or.inl ⟨pos, hpos, i, hi, j, ⟨hj, hcond, heq.symm⟩⟩
    · exact Or.inr ⟨i, hi, heq.symm⟩

theorem entry_flipRows (f : JacobianFactor) (flips : Nat → Bool)
    (m : Option NoiseModel) (i j : Nat) :
    entry (flipRows f flips m).matrix i j =
      if flips i then -(entry f.matrix i j) else entry f.matrix i j := by
  show entry ((List.range f.matrix.length).map (fun i =>
      if flips i then vneg (f.matrix.getD i []) else f.matrix.getD i [])) i j = _
  unfold entry
  rw [getD_range_map]
  by_cases hi : i < f.matrix.length
  · rw [if_pos hi]
    by_cases hfl : flips i
    · rw [if_pos hfl, if_pos hfl]
      exact getD_vneg _ _
    · rw [if_neg hfl, if_neg hfl]
  · rw [if_neg hi]
    have h0 : f.matrix.getD i [] = [] :=
      List.getD_eq_default _ _ (Nat.le_of_not_lt hi)
    rw [h0]
    by_cases hfl : flips i <;> simp [hfl]

theorem activeRow_flipRows (f : JacobianFactor) (flips : Nat → Bool)
    (m : Option NoiseModel) (r : Nat) :
    (flipRows f flips m).activeRow r =
      if flips (f.rowStart + r) then vneg (f.activeRow r) else f.activeRow r := by
  show (List.range f.activeCols).map (fun c =>
      entry (flipRows f flips m).matrix (f.rowStart + r)
        (offset f.blockDims f.firstBlock + c)) = _
  by_cases hfl : flips (f.rowStart + r)
  · rw [if_pos hfl]
    unfold JacobianFactor.activeRow vneg
    rw [List.map_map]
    apply List.map_congr_left
    intro c hc
    rw [Function.comp_apply, entry_flipRows, if_pos hfl]
  · rw [if_neg hfl]
    unfold JacobianFactor.activeRow
    apply List.map_congr_left
    intro c hc
    rw [entry_flipRows, if_neg hfl]

/-- C9: `equals` is invariant under per-row sign flips and never consults the
noise model — for a non-empty factor `f`, negating an arbitrary subset of
rows of the augmented matrix and replacing the noise model by anything at
all still yields `equals = true` for every nonnegative tolerance (keys and
dimensions agree by construction; the noise-model comparison in the source
is commented out). -/
theorem equals_ignores_sign_and_model (f : JacobianFactor) (flips : Nat → Bool)
    (m : Option NoiseModel) (tol : ℚ) (hne : f.keys ≠ []) (htol : 0 ≤ tol) :
    JacobianFactor.equals f (flipRows f flips m) tol = true := by
  have hemp : f.keys.isEmpty = false := by
    cases hk : f.keys with
    | nil => exact absurd hk hne
    | cons a l => rfl
  unfold JacobianFactor.equals
  rw [hemp]
  rw [if_neg (by simp)]
  have hkeys : (flipRows f flips m).keys = f.keys := rfl
  have hrows : (flipRows f flips m).rows = f.rows := rfl
  have hac : (flipRows f flips m).activeCols = f.activeCols := rfl
  rw [hkeys, hrows, hac]
  rw [if_pos rfl]
  rw [if_pos ⟨rfl, rfl⟩]
  rw [List.all_eq_true]
  intro r hr
  rw [activeRow_flipRows]
  by_cases hfl : flips (f.rowStart + r)
  · rw [if_pos hfl]
    rw [equal_with_abs_tol_refl _ _ htol]
    simp
  · rw [if_neg hfl]
    rw [equal_with_abs_tol_refl _ _ htol]
    simp

/-- Witness for C1 at the concrete one-variable factor `wf` and rank-1 QR
oracle `wqr`, with every precondition discharged. -/
theorem eliminate_singular_iff_w :
    (JacobianFactor.eliminate wqr wf 1 =
        Except.error (ElimError.singular (wf.keys.getD 0 0))) ↔
      (wqr wf.matrix).model.sigmas.length < wf.frontalDim 1 :=
  eliminate_singular_iff wqr wf 1 rfl rfl rfl (by decide)

/-- Witness for C2 at the concrete two-variable factor `wf2` and rank-2 QR
oracle `wqr2`, eliminating one variable. -/
theorem eliminate_success_postconditions_w :
    welim2.2.keys = wf2.keys.drop 1 ∧
    welim2.2.rowStart = wf2.rowStart + wf2.frontalDim 1 ∧
    welim2.2.firstBlock = wf2.firstBlock + 1 ∧
    welim2.2.rowEnd = (wqr2 wf2.matrix).model.sigmas.length ∧
    ∃ nm, welim2.2.model = some nm ∧
      nm.sigmas = sub (wqr2 wf2.matrix).model.sigmas (wf2.frontalDim 1)
        (wqr2 wf2.matrix).model.sigmas.length ∧
      nm.constrained = (wqr2 wf2.matrix).model.constrained :=
  eliminate_success_postconditions wqr2 wf2 1 welim2.1 welim2.2 rfl rfl (by decide) rfl

/-- Witness for C7 at the concrete elimination of one variable from `wf2`,
with the spec-modelled QR rank bound discharged by computation. -/
theorem eliminate_leaves_underdetermined_w :
    welim2.2.rows + 1 ≤ welim2.2.activeCols :=
  eliminate_leaves_underdetermined wqr2 wf2 1 welim2.1 welim2.2 rfl rfl rfl
    (by decide) (by intro m; show (2 : Nat) < wf2.blockDims.sum; decide) rfl

/-- Witness for C4 at the concrete Hessian factor `whf` (unsorted keys) and
rank-1 Cholesky oracle `wchol`. -/
theorem mkFromHessian_spec_w :
    (∀ i j, j < i → i < 1 → entry wJ4.matrix i j = 0) ∧
    wJ4.keys.Sorted (· < ·) ∧
    (∀ k, k ∈ wJ4.keys ↔ k ∈ whf.keys) ∧
    wJ4.model = some (noiseModel.Unit.Create 1) ∧
    (noiseModel.Unit.Create 1).sigmas.length = 1 :=
  (mkFromHessian_spec wchol whf).2 whf.info 1 wJ4 rfl rfl

/-- Witness for C9: flipping the sign of row 1 of `wf2` and erasing the noise
model still compares equal at tolerance zero. -/
theorem equals_ignores_sign_and_model_w :
    JacobianFactor.equals wf2 (flipRows wf2 (fun i => i == 1) none) 0 = true :=
  equals_ignores_sign_and_model wf2 (fun i => i == 1) none 0 (by decide) le_rfl

/-- Witness for C10: two concrete camera sets that differ in their second
cameras still compare equal, because only the first cameras are checked. -/
theorem cameraSet_equals_first_camera_only_w :
    CameraSet.equals (fun a b (_ : ℚ) => a == b) [1, 2] [1, 3] 0 = true :=
  Eq.trans ((cameraSet_equals_first_camera_only Nat (fun a b _ => a == b) 0).1
    1 1 [2] [3] rfl) rfl
